import Mathlib

set_option maxHeartbeats 1000000
set_option linter.unusedSectionVars false

/-!
Verification of the blst-ringct core: a shallow embedding of
src/src/mlsag.rs and src/src/ringct.rs.

Modelling conventions
=====================

* `Scalar` (the prime scalar field of BLS12-381's G1) is an abstract
  commutative ring `F`; the prime-order group G1 is an abstract `F`-module
  `P`.  All theorems are parametric in these, so they hold in particular
  for the real field and group; concrete witnesses instantiate them with
  `ZMod 13` acting on itself.
* External primitives (blstrs curve arithmetic, hash-to-curve, the
  SHA3-based `c_hash`, byte encodings, lib.rs helpers that are not under
  src/) are modelled as parameters bundled in `Ctx`, and the external
  bulletproofs range-proof library (out of scope per the spec) as the
  parameters bundled in `RpCtx`.  Nothing is assumed about them beyond
  determinism, except where a theorem explicitly takes the range-proof
  library's documented contract as a hypothesis.
* Randomness (the Rust `RngCore` arguments) is derandomized: each random
  draw becomes an explicit parameter (`SigRand`, the blinding streams).
  Universally quantified theorems over these parameters cover every
  possible RNG behaviour.
* Rust panics (out-of-bounds `Vec` indexing, `panic!`) are modelled by
  `Option`: a function that can panic returns `none` exactly when the Rust
  code panics.  Fallible calls return `Except`.
* `G1Affine` values whose curve membership is ever tested are modelled by
  `AffinePoint`: the group element the bytes decode to plus the result of
  blst's curve test.  blst's `blst_p1_affine_on_curve` accepts the
  all-zero point-at-infinity encoding (it ORs the curve equation with
  `vec_is_zero`), so `G1Affine::identity()` passes the test: the model's
  identity therefore carries `onCurve := true`.
-/

deriving instance DecidableEq for Except

namespace BlstRingCt

/-- `Vec::insert(i, a)`: insert `a` at position `i`, shifting the rest.
Rust panics for `i > len`; this model appends at the end in that case, but
every use in the embedded code has `i ≤ len` (the signer inserts at
`pi < decoys.len() + 1`). -/
def insertAt {α : Type} : Nat → α → List α → List α
  | _, a, [] => [a]
  | 0, a, x :: xs => a :: x :: xs
  | i + 1, a, x :: xs => x :: insertAt i a xs

/-- Map with the position of each element: models an iterator `map` whose
closure draws from the RNG (the index is the position of the draw in the
RNG stream). -/
def mapIdx {α β : Type} (f : Nat → α → β) : Nat → List α → List β
  | _, [] => []
  | i, a :: as => f i a :: mapIdx f (i + 1) as

/-- Modelled from the spec: the crate's error taxonomy (section 7; the enum
itself is declared in lib.rs, which is not under src/).  The variants are
exactly the ones constructed by src/src/mlsag.rs and src/src/ringct.rs,
plus range-proof errors propagated verbatim from the library (`E`). -/
inductive Error (E : Type) where
  | ExpectedAPublicCommitmentsForEachRingEntry
  | InvalidHiddenCommitmentInRing
  | KeyImageNotOnCurve
  | InvalidRingSignature
  | InputPseudoCommitmentsDoNotSumToOutputCommitments
  | bulletproofs (e : E)
  deriving DecidableEq

/-- A blstrs `G1Affine` as the verifier sees it: the group element its
coordinates encode together with the result of blst's curve-membership
test (`blst_p1_affine_on_curve`).  Group arithmetic in the embedded code
uses `toPoint`; the code only performs arithmetic on values whose curve
test it has checked (or that it computed itself, which are on the curve by
construction, `ofPoint`). -/
structure AffinePoint (P : Type) where
  toPoint : P
  onCurve : Bool
  deriving DecidableEq

/-- `to_affine()` of a computed (hence on-curve) projective point. -/
def AffinePoint.ofPoint {P : Type} (p : P) : AffinePoint P :=
  { toPoint := p, onCurve := true }

/-- `G1Affine::identity()`: the all-zero encoding of the point at
infinity.  blst's `blst_p1_affine_on_curve` ORs the curve equation with
`vec_is_zero`, so this encoding passes the curve test: `onCurve := true`. -/
def AffinePoint.identity {P : Type} [Zero P] : AffinePoint P :=
  { toPoint := 0, onCurve := true }

/-- `G1Affine::is_on_curve()`: blstrs delegates to
`blst_p1_affine_on_curve`. -/
def AffinePoint.is_on_curve {P : Type} (a : AffinePoint P) : Bool :=
  a.onCurve

/-- Modelled from the spec: the external cryptographic primitives layer
(sections 1, 4.1, 6): the deployment generator pair `(G, H)`, hash-to-curve
`H_p`, the Fiat-Shamir challenge hash `c_hash` (SHA3-based, so abstract
here: only its determinism is used), and the byte encodings used to build
the signed message.  Per spec section 6 the Pedersen blinding base and the
MLSAG base coincide, so a single `G` serves both. -/
structure Ctx (F P : Type) where
  G : P
  H : P
  hash_to_curve : P → P
  c_hash : List Nat → P → P → P → F
  ptBytes : P → List Nat
  rcBytes : Nat → F → List Nat

/-- `RevealedCommitment { value: u64, blinding: Scalar }` (lib.rs, not
under src/; layout per spec section 3). -/
structure RevealedCommitment (F : Type) where
  value : Nat
  blinding : F
  deriving DecidableEq

section Model

variable {F P T RP E : Type}
variable [CommRing F] [AddCommGroup P] [Module F P]
variable [DecidableEq F] [DecidableEq P]

/-- Modelled from the spec: `commit() = blinding·G + value·H` (spec
sections 3 and 4.2; the function lives in lib.rs, not under src/). -/
def RevealedCommitment.commit (rc : RevealedCommitment F) (ctx : Ctx F P) : P :=
  rc.blinding • ctx.G + (rc.value : F) • ctx.H

/-- `RevealedCommitment::to_bytes`: `value` little-endian then `blinding`
little-endian (spec section 6); the byte encoding itself is abstract. -/
def RevealedCommitment.to_bytes (rc : RevealedCommitment F) (ctx : Ctx F P) : List Nat :=
  ctx.rcBytes rc.value rc.blinding

/-- `TrueInput { secret_key, revealed_commitment }` (mlsag.rs). -/
structure TrueInput (F : Type) where
  secret_key : F
  revealed_commitment : RevealedCommitment F

/-- `TrueInput::public_key`: `G1Projective::generator() * secret_key`. -/
def TrueInput.public_key (t : TrueInput F) (ctx : Ctx F P) : P :=
  t.secret_key • ctx.G

/-- `TrueInput::key_image`: `hash_to_curve(public_key()) * secret_key`. -/
def TrueInput.key_image (t : TrueInput F) (ctx : Ctx F P) : P :=
  t.secret_key • ctx.hash_to_curve (t.public_key ctx)

/-- `TrueInput::random_pseudo_commitment`:
`RevealedCommitment::from_value(value, rng)` keeps the input's value and
draws a fresh blinding (lib.rs, per spec sections 3 and 4.5); the random
blinding is the explicit argument. -/
def TrueInput.random_pseudo_commitment (t : TrueInput F) (blind : F) :
    RevealedCommitment F :=
  { value := t.revealed_commitment.value, blinding := blind }

/-- `DecoyInput { public_key, commitment }` (mlsag.rs). -/
structure DecoyInput (P : Type) where
  public_key : P
  commitment : P

/-- `MlsagMaterial { true_input, decoy_inputs }` (mlsag.rs). -/
structure MlsagMaterial (F P : Type) where
  true_input : TrueInput F
  decoy_inputs : List (DecoyInput P)

/-- `MlsagMaterial::count_inputs`: `decoy_inputs.len() + 1`. -/
def MlsagMaterial.count_inputs (m : MlsagMaterial F P) : Nat :=
  m.decoy_inputs.length + 1

/-- `MlsagMaterial::public_keys(pi)`: the decoy public keys with the true
input's public key inserted at position `pi`. -/
def MlsagMaterial.public_keys (m : MlsagMaterial F P) (ctx : Ctx F P) (pi : Nat) :
    List P :=
  insertAt pi (m.true_input.public_key ctx) (m.decoy_inputs.map fun d => d.public_key)

/-- `MlsagMaterial::commitments(pi, pc_gens)`: the decoy commitments with
the true input's committed revealed commitment inserted at position `pi`. -/
def MlsagMaterial.commitments (m : MlsagMaterial F P) (ctx : Ctx F P) (pi : Nat) :
    List P :=
  insertAt pi (m.true_input.revealed_commitment.commit ctx)
    (m.decoy_inputs.map fun d => d.commitment)

/-- The random draws `MlsagMaterial::sign` makes from its RNG: the `u32`
behind the choice of `pi`, the pair `alpha`, and the stream of scalar
pairs behind the initial responses `r`. -/
structure SigRand (F : Type) where
  piRaw : Nat
  alpha : F × F
  rr : Nat → F × F

/-- `MlsagSignature { c0, r, key_image, ring, pseudo_commitment }`
(mlsag.rs).  `key_image` is the one affine field whose curve membership
`verify` tests, so it keeps its `AffinePoint` wrapper; the ring members
and the pseudo-commitment are only used arithmetically. -/
structure MlsagSignature (F P : Type) where
  c0 : F
  r : List (F × F)
  key_image : AffinePoint P
  ring : List (P × P)
  pseudo_commitment : P
  deriving DecidableEq

/-- `MlsagSignature::public_keys`: first components of the ring. -/
def MlsagSignature.public_keys (s : MlsagSignature F P) : List P :=
  s.ring.map fun e => e.1

/-- The challenge recurrence shared by signing (mlsag.rs lines 120-128)
and verification (lines 251-258):
`c_hash(msg, r[n].0*G1 + ring[n].0*c, r[n].1*G1 + ring[n].1*c,
hash_to_curve(ring[n].0)*r[n].0 + key_image*c)`. -/
def mlsagStep (ctx : Ctx F P) (msg : List Nat) (ki : P) (ring : List (P × P))
    (r : List (F × F)) (n : Nat) (c : F) : F :=
  ctx.c_hash msg
    ((r.getD n (0, 0)).1 • ctx.G + c • (ring.getD n (0, 0)).1)
    ((r.getD n (0, 0)).2 • ctx.G + c • (ring.getD n (0, 0)).2)
    ((r.getD n (0, 0)).1 • ctx.hash_to_curve (ring.getD n (0, 0)).1 + c • ki)

/-- The signer's challenge vector after `m` iterations of the loop
`for offset in 1..ring.len()` (mlsag.rs lines 120-128), starting from the
zero vector seeded at `(pi+1) % len` (line 113). -/
def sFold (step : Nat → F → F) (len pi : Nat) (seed : F) (m : Nat) : List F :=
  (List.range' 1 m).foldl
    (fun cc offset =>
      cc.set (((pi + offset) % len + 1) % len)
        (step ((pi + offset) % len) (cc.getD ((pi + offset) % len) 0)))
    ((List.replicate len (0 : F)).set ((pi + 1) % len) seed)

/-- The verifier's challenge vector after processing ring members
`0..m` (mlsag.rs lines 251-258), starting from the zero vector with
`cprime[0] = c0` (line 249). -/
def vFold (step : Nat → F → F) (len : Nat) (c0 : F) (m : Nat) : List F :=
  (List.range m).foldl
    (fun cc n => cc.set ((n + 1) % len) (step n (cc.getD n 0)))
    ((List.replicate len (0 : F)).set 0 c0)

/-- The closed form of the signer's chain: `cseq k` is the challenge at
ring position `(pi + 1 + k) % len`. -/
def cseq (step : Nat → F → F) (pi len : Nat) (seed : F) : Nat → F
  | 0 => seed
  | k + 1 => step ((pi + 1 + k) % len) (cseq step pi len seed k)

/-- `MlsagMaterial::sign` (mlsag.rs lines 76-203).  The RNG is
derandomized into `rand`; `pi = rand.piRaw % (decoys + 1)` models
`rng.next_u32() as usize % (decoy_inputs.len() + 1)`. -/
def MlsagMaterial.sign (m : MlsagMaterial F P) (ctx : Ctx F P) (msg : List Nat)
    (revealed_pseudo_commitment : RevealedCommitment F) (rand : SigRand F) :
    MlsagSignature F P :=
  let pi := rand.piRaw % (m.decoy_inputs.length + 1)
  let public_keys := m.public_keys ctx pi
  let commitments := m.commitments ctx pi
  let pseudo_commitment : P := revealed_pseudo_commitment.commit ctx
  let ring : List (P × P) :=
    (public_keys.zip commitments).map fun pc => (pc.1, pc.2 - pseudo_commitment)
  let key_image : P := m.true_input.key_image ctx
  let r : List (F × F) := (List.range ring.length).map rand.rr
  let seed : F :=
    ctx.c_hash msg (rand.alpha.1 • ctx.G) (rand.alpha.2 • ctx.G)
      (rand.alpha.1 • ctx.hash_to_curve (ring.getD pi (0, 0)).1)
  let c : List F :=
    sFold (mlsagStep ctx msg key_image ring r) ring.length pi seed (ring.length - 1)
  let secret_keys : F × F :=
    (m.true_input.secret_key,
     m.true_input.revealed_commitment.blinding - revealed_pseudo_commitment.blinding)
  let rFin : List (F × F) :=
    r.set pi
      (rand.alpha.1 - c.getD pi 0 * secret_keys.1,
       rand.alpha.2 - c.getD pi 0 * secret_keys.2)
  { c0 := c.getD 0 0
    r := rFin
    key_image := AffinePoint.ofPoint key_image
    ring := ring
    pseudo_commitment := pseudo_commitment }

/-- The verifier's recomputed challenge vector `cprime` (mlsag.rs lines
248-258). -/
def MlsagSignature.cprime (s : MlsagSignature F P) (ctx : Ctx F P) (msg : List Nat) :
    List F :=
  vFold (mlsagStep ctx msg s.key_image.toPoint s.ring s.r) s.ring.length s.c0
    s.ring.length

/-- `MlsagSignature::verify` (mlsag.rs lines 224-266).  `none` models a
panic: with an empty ring, `cprime[0] = self.c0` indexes an empty vector
(line 249); with `r` shorter than `ring`, the loop reads `self.r[n]` out
of bounds at `n = r.len()` (lines 251-258).  Both panics happen after the
three explicit checks and regardless of any challenge value, so they are
modelled as up-front guards. -/
def MlsagSignature.verify (s : MlsagSignature F P) (ctx : Ctx F P) (msg : List Nat)
    (public_commitments : List P) : Option (Except (Error E) Unit) :=
  if s.ring.length ≠ public_commitments.length then
    some (.error .ExpectedAPublicCommitmentsForEachRingEntry)
  else if (s.ring.zip public_commitments).any
      (fun x => decide (x.1.2 ≠ x.2 - s.pseudo_commitment)) then
    some (.error .InvalidHiddenCommitmentInRing)
  else if !s.key_image.is_on_curve then
    some (.error .KeyImageNotOnCurve)
  else if s.ring.length = 0 then
    none
  else if s.r.length < s.ring.length then
    none
  else if s.c0 ≠ (s.cprime ctx msg).getD 0 0 then
    some (.error .InvalidRingSignature)
  else
    some (.ok ())

/-- The per-index hidden-commitment condition of verify's first loop:
`ring[i].1 == public_commitments[i] - pseudo_commitment`. -/
def HiddenOk (s : MlsagSignature F P) (public_commitments : List P) : Prop :=
  ∀ i < s.ring.length,
    (s.ring.getD i (0, 0)).2 = public_commitments.getD i 0 - s.pseudo_commitment

instance (s : MlsagSignature F P) (pcs : List P) : Decidable (HiddenOk s pcs) :=
  Nat.decidableBallLT s.ring.length _

/-- `Output { public_key, amount }` (ringct.rs). -/
structure Output (P : Type) where
  public_key : P
  amount : Nat
  deriving DecidableEq

/-- `Output::random_commitment`: `RevealedCommitment::from_value(amount,
rng)`; the random blinding is the explicit argument. -/
def Output.random_commitment (o : Output P) (blind : F) : RevealedCommitment F :=
  { value := o.amount, blinding := blind }

/-- `OutputProof { range_proof, commitment }` (ringct.rs). -/
structure OutputProof (P RP : Type) where
  range_proof : RP
  commitment : P
  deriving DecidableEq

/-- Modelled from the spec: the single-value bulletproofs interface the
core consumes (spec sections 1 and 4.5-4.6): a stateful transcript `T`
initialized with the `BLST_RINGCT` label (`newT`), `prove_single` and
`verify_single` over it, and the range proof's canonical bytes.  The pair
`(bp_gens, pc_gens)` with `RANGE_PROOF_BITS = 64`, `RANGE_PROOF_PARTIES =
1` is folded into the two functions, constant across a deployment. -/
structure RpCtx (F P T RP E : Type) where
  newT : T
  proveSingle : T → Nat → F → Except E (T × RP × P)
  verifySingle : T → RP → P → Except E T
  rpBytes : RP → List Nat

/-- `OutputProof::to_bytes`: range-proof bytes then the compressed
commitment (ringct.rs lines 180-185). -/
def OutputProof.to_bytes (o : OutputProof P RP) (ctx : Ctx F P)
    (rpctx : RpCtx F P T RP E) : List Nat :=
  rpctx.rpBytes o.range_proof ++ ctx.ptBytes o.commitment

/-- The prover-side loop of ringct.rs lines 117-134: one
`RangeProof::prove_single` per revealed output commitment, threading the
shared transcript; the first library error propagates. -/
def proveAll (rpctx : RpCtx F P T RP E) :
    T → List (RevealedCommitment F) → Except E (T × List (OutputProof P RP))
  | ts, [] => .ok (ts, [])
  | ts, rc :: rest =>
    match rpctx.proveSingle ts rc.value rc.blinding with
    | .error e => .error e
    | .ok (ts', rp, cmt) =>
      match proveAll rpctx ts' rest with
      | .error e => .error e
      | .ok (ts'', ops) => .ok (ts'', { range_proof := rp, commitment := cmt } :: ops)

/-- `RingCtMaterial { inputs, outputs }` (ringct.rs). -/
structure RingCtMaterial (F P : Type) where
  inputs : List (MlsagMaterial F P)
  outputs : List (Output P)

/-- `RingCtTransaction { mlsags, outputs }` (ringct.rs). -/
structure RingCtTransaction (F P RP : Type) where
  mlsags : List (MlsagSignature F P)
  outputs : List (OutputProof P RP)
  deriving DecidableEq

/-- ringct.rs lines 78-82: one pseudo-commitment opening per input, the
input's own value with a fresh blinding from the stream. -/
def ringctPseudos (mat : RingCtMaterial F P) (pseudoBlind : Nat → F) :
    List (RevealedCommitment F) :=
  mapIdx (fun i m => m.true_input.random_pseudo_commitment (pseudoBlind i)) 0
    mat.inputs

/-- ringct.rs lines 86-91: fresh openings for all but the last output
(the `map` then `take(outputs.len() - 1)` chain). -/
def ringctDrawn (mat : RingCtMaterial F P) (outBlind : Nat → F) :
    List (RevealedCommitment F) :=
  (mapIdx (fun j o => o.random_commitment (outBlind j)) 0 mat.outputs).take
    (mat.outputs.length - 1)

/-- ringct.rs lines 93-102: `output_blinding_correction = input_sum -
output_sum` over the blindings. -/
def ringctCorrection (mat : RingCtMaterial F P) (pseudoBlind outBlind : Nat → F) :
    F :=
  ((ringctPseudos mat pseudoBlind).map fun rc => rc.blinding).sum -
    ((ringctDrawn mat outBlind).map fun rc => rc.blinding).sum

/-- ringct.rs lines 104-113: the drawn openings plus the last output's
opening with the correcting blinding. -/
def ringctOutRcs (mat : RingCtMaterial F P) (pseudoBlind outBlind : Nat → F)
    (last_output : Output P) : List (RevealedCommitment F) :=
  ringctDrawn mat outBlind ++
    [{ value := last_output.amount,
       blinding := ringctCorrection mat pseudoBlind outBlind }]

/-- ringct.rs lines 136-155: the signed message, the concatenation of the
compressed true-input public keys, the flattened decoy public keys, the
key images, the pseudo-opening bytes, the output-opening bytes, and the
output proofs' bytes, in that order. -/
def ringctMsg (mat : RingCtMaterial F P) (ctx : Ctx F P)
    (rpctx : RpCtx F P T RP E) (pseudoBlind outBlind : Nat → F)
    (last_output : Output P) (outputs : List (OutputProof P RP)) : List Nat :=
  ((mat.inputs.map fun m => m.true_input.public_key ctx).map ctx.ptBytes).flatten ++
  (((mat.inputs.map fun m => m.decoy_inputs.map fun d => d.public_key).flatten).map
    ctx.ptBytes).flatten ++
  ((mat.inputs.map fun m => m.true_input.key_image ctx).map ctx.ptBytes).flatten ++
  ((ringctPseudos mat pseudoBlind).map fun rc => rc.to_bytes ctx).flatten ++
  ((ringctOutRcs mat pseudoBlind outBlind last_output).map
    fun rc => rc.to_bytes ctx).flatten ++
  (outputs.map fun o => o.to_bytes ctx rpctx).flatten

/-- ringct.rs lines 157-163: one MLSAG per input, zipped with its pseudo
opening, all bound to the same message. -/
def ringctMlsags (mat : RingCtMaterial F P) (ctx : Ctx F P) (msg : List Nat)
    (pseudoBlind : Nat → F) (sigRand : Nat → SigRand F) :
    List (MlsagSignature F P) :=
  mapIdx (fun i x => x.1.sign ctx msg x.2 (sigRand i)) 0
    (mat.inputs.zip (ringctPseudos mat pseudoBlind))

/-- `RingCtMaterial::sign` (ringct.rs lines 38-170), composed from the
named stages above.  `none` models the panic on empty `outputs` (in a
debug build the underflow in `take(outputs.len() - 1)`, line 90;
otherwise the explicit `panic!("Expected at least one output")`, line
110); `some (.error e)` a propagated range-proof proving error;
randomness is derandomized into the three streams. -/
def RingCtMaterial.sign (mat : RingCtMaterial F P) (ctx : Ctx F P)
    (rpctx : RpCtx F P T RP E) (pseudoBlind : Nat → F) (outBlind : Nat → F)
    (sigRand : Nat → SigRand F) :
    Option (Except E
      (List Nat × RingCtTransaction F P RP × List (RevealedCommitment F))) :=
  match mat.outputs.getLast? with
  | none => none
  | some last_output =>
    match proveAll rpctx rpctx.newT
        (ringctOutRcs mat pseudoBlind outBlind last_output) with
    | .error e => some (.error e)
    | .ok (_, outputs) =>
      let msg : List Nat :=
        ringctMsg mat ctx rpctx pseudoBlind outBlind last_output outputs
      some (.ok (msg,
        { mlsags := ringctMlsags mat ctx msg pseudoBlind sigRand,
          outputs := outputs },
        ringctOutRcs mat pseudoBlind outBlind last_output))

/-- The verifier-side loop over `mlsags.zip(public_commitments_per_ring)`
(ringct.rs lines 204-206): short-circuits on the first error, propagates a
panic. -/
def verifyMlsags (ctx : Ctx F P) (msg : List Nat) :
    List (MlsagSignature F P × List P) → Option (Except (Error E) Unit)
  | [] => some (.ok ())
  | (s, pcs) :: rest =>
    match s.verify (E := E) ctx msg pcs with
    | none => none
    | some (.error e) => some (.error e)
    | some (.ok _) => verifyMlsags ctx msg rest

/-- The verifier-side range-proof loop (ringct.rs lines 212-221): one
`verify_single` per output proof over a fresh identically-labelled
transcript. -/
def verifyRangeProofs (rpctx : RpCtx F P T RP E) :
    T → List (OutputProof P RP) → Except E T
  | ts, [] => .ok ts
  | ts, op :: rest =>
    match rpctx.verifySingle ts op.range_proof op.commitment with
    | .error e => .error e
    | .ok ts' => verifyRangeProofs rpctx ts' rest

/-- `RingCtTransaction::verify` (ringct.rs lines 203-241): every zipped
ring, then every range proof, then the homomorphic balance check. -/
def RingCtTransaction.verify (tx : RingCtTransaction F P RP) (ctx : Ctx F P)
    (rpctx : RpCtx F P T RP E) (msg : List Nat)
    (public_commitments_per_ring : List (List P)) :
    Option (Except (Error E) Unit) :=
  match verifyMlsags (E := E) ctx msg
      (tx.mlsags.zip public_commitments_per_ring) with
  | none => none
  | some (.error e) => some (.error e)
  | some (.ok _) =>
    match verifyRangeProofs rpctx rpctx.newT tx.outputs with
    | .error e => some (.error (.bulletproofs e))
    | .ok _ =>
      let input_sum : P := (tx.mlsags.map fun s => s.pseudo_commitment).sum
      let output_sum : P := (tx.outputs.map fun o => o.commitment).sum
      if input_sum ≠ output_sum then
        some (.error .InputPseudoCommitmentsDoNotSumToOutputCommitments)
      else
        some (.ok ())

/-- The "correct per-ring ledger commitments" for a signed material: for
ring `i`, the commitment list the signer itself committed to (ledger
commitments for decoys, the true input's own commitment at its position),
in ring order. -/
def pcssCorrect (mat : RingCtMaterial F P) (ctx : Ctx F P)
    (sigRand : Nat → SigRand F) : List (List P) :=
  mapIdx (fun i m => m.commitments ctx ((sigRand i).piRaw % m.count_inputs)) 0
    mat.inputs

end Model

/-! ### Concrete instantiation used by witnesses and counterexamples -/

namespace Conc

/-- The concrete scalar field for witnesses: `ZMod 13`, acting on itself
as the group: a faithful, fully computable instance of the abstract
model. -/
abbrev CF := ZMod 13

/-- A concrete primitives context over `CF`. -/
def ctx : Ctx CF CF where
  G := 1
  H := 2
  hash_to_curve := fun p => p + p + 1
  c_hash := fun _ _ _ _ => 3
  ptBytes := fun p => [ZMod.val p]
  rcBytes := fun v b => v :: [ZMod.val b]

/-- A concrete range-proof backend satisfying the library's contract:
proofs carry no data and `proveSingle` returns the Pedersen commitment
`blinding * G + value * H` for the concrete generators of `ctx`. -/
def rpctx : RpCtx CF CF Unit Unit Unit where
  newT := ()
  proveSingle := fun _ v b => .ok ((), (), b • (1 : CF) + (v : CF) • (2 : CF))
  verifySingle := fun _ _ _ => .ok ()
  rpBytes := fun _ => []

/-- A concrete true input: value 3, blinding 5, secret key 4. -/
def ti1 : TrueInput CF :=
  { secret_key := 4, revealed_commitment := { value := 3, blinding := 5 } }

/-- A concrete decoy. -/
def d1 : DecoyInput CF := { public_key := 6, commitment := 7 }

/-- Concrete signing material: one input of value 3 with one decoy, one
output of amount 3 (conserving value). -/
def mat1 : RingCtMaterial CF CF :=
  { inputs := [{ true_input := ti1, decoy_inputs := [d1] }],
    outputs := [{ public_key := 9, amount := 3 }] }

/-- A concrete derandomized RNG stream for the MLSAG signer. -/
def rand1 : Nat → SigRand CF := fun _ =>
  { piRaw := 1, alpha := (2, 3), rr := fun _ => (4, 5) }

/-- A concrete true input of value 0. -/
def ti2 : TrueInput CF :=
  { secret_key := 4, revealed_commitment := { value := 0, blinding := 5 } }

/-- Concrete material violating conservation: input value 0, output
amount 1. -/
def mat2 : RingCtMaterial CF CF :=
  { inputs := [{ true_input := ti2, decoy_inputs := [] }],
    outputs := [{ public_key := 9, amount := 1 }] }

/-- The (message, transaction, output openings) triple that signing `mat2`
produces. -/
def c2res :
    List Nat × RingCtTransaction CF CF Unit × List (RevealedCommitment CF) :=
  match mat2.sign ctx rpctx (fun _ => 5) (fun _ => 6) rand1 with
  | some (.ok x) => x
  | _ => ([], { mlsags := [], outputs := [] }, [])

/-- The (message, transaction, output openings) triple that signing `mat1`
produces. -/
def c2okres :
    List Nat × RingCtTransaction CF CF Unit × List (RevealedCommitment CF) :=
  match mat1.sign ctx rpctx (fun _ => 5) (fun _ => 6) rand1 with
  | some (.ok x) => x
  | _ => ([], { mlsags := [], outputs := [] }, [])

/-- A concrete well-formed MLSAG signature of ring size 1.  Its hidden
commitment matches the public commitment 7 minus the pseudo-commitment 4,
its key image passes the curve test, and its `c0 = 3` closes the constant
challenge chain of `ctx`. -/
def sig3 : MlsagSignature CF CF :=
  { c0 := 3, r := [(1, 1)], key_image := { toPoint := 5, onCurve := true },
    ring := [(1, 3)], pseudo_commitment := 4 }

/-- Concrete material with no outputs at all. -/
def mat4 : RingCtMaterial CF CF :=
  { inputs := [{ true_input := ti1, decoy_inputs := [d1] }], outputs := [] }

/-- `sig3` with its key image replaced by `G1Affine::identity()` (the
all-zero encoding, which blst counts as on-curve). -/
def sig5 : MlsagSignature CF CF :=
  { c0 := 3, r := [(1, 1)], key_image := AffinePoint.identity,
    ring := [(1, 3)], pseudo_commitment := 4 }

/-- `sig3` with its key image replaced by an encoding that fails the
curve test. -/
def sig5off : MlsagSignature CF CF :=
  { c0 := 3, r := [(1, 1)], key_image := { toPoint := 5, onCurve := false },
    ring := [(1, 3)], pseudo_commitment := 4 }

/-- A concrete MLSAG material (the input of `mat1`). -/
def mm1 : MlsagMaterial CF CF := { true_input := ti1, decoy_inputs := [d1] }

/-- A concrete pseudo-commitment opening for the same value as `ti1`. -/
def psc0 : RevealedCommitment CF := { value := 3, blinding := 8 }

/-- A valid ring-size-1 signature whose pseudo-commitment is 4. -/
def sig8ok : MlsagSignature CF CF :=
  { c0 := 3, r := [(1, 1)], key_image := { toPoint := 5, onCurve := true },
    ring := [(1, 3)], pseudo_commitment := 4 }

/-- A signature that fails ring verification (its `c0 = 5` does not close
the constant chain) with pseudo-commitment 6. -/
def sig8bad : MlsagSignature CF CF :=
  { c0 := 5, r := [(1, 1)], key_image := { toPoint := 5, onCurve := true },
    ring := [(1, 3)], pseudo_commitment := 6 }

/-- A completely different signature with the same pseudo-commitment 6. -/
def sig8bad2 : MlsagSignature CF CF :=
  { c0 := 7, r := [(2, 2)], key_image := { toPoint := 9, onCurve := true },
    ring := [(4, 4)], pseudo_commitment := 6 }

/-- One output proof whose commitment 10 balances pseudo-commitments
4 + 6. -/
def outs8 : List (OutputProof CF Unit) :=
  [{ range_proof := (), commitment := 10 }]

/-- A signature with an empty ring and an on-curve key image. -/
def sig9 : MlsagSignature CF CF :=
  { c0 := 3, r := [], key_image := { toPoint := 5, onCurve := true },
    ring := [], pseudo_commitment := 4 }

/-- A signature whose `r` vector (empty) is shorter than its ring. -/
def sig10 : MlsagSignature CF CF :=
  { c0 := 3, r := [], key_image := { toPoint := 5, onCurve := true },
    ring := [(1, 3)], pseudo_commitment := 4 }

end Conc

/-! ### List index lemmas -/

section ListLemmas

variable {α β γ : Type}

theorem getD_set_self (l : List α) (i : Nat) (x d : α) (h : i < l.length) :
    (l.set i x).getD i d = x := by
  simp [List.getD, List.getElem?_set_self, h]

theorem getD_set_ne (l : List α) (i j : Nat) (x d : α) (h : i ≠ j) :
    (l.set i x).getD j d = l.getD j d := by
  simp [List.getD, List.getElem?_set_ne h]

theorem getD_replicate (n i : Nat) (x d : α) (h : i < n) :
    (List.replicate n x).getD i d = x := by
  simp [List.getD, List.getElem?_replicate, h]

theorem getD_map (l : List α) (f : α → β) (i : Nat) (d : α) (d' : β)
    (h : i < l.length) : (l.map f).getD i d' = f (l.getD i d) := by
  simp [List.getD, List.getElem?_eq_getElem, h]

theorem getD_zip (l1 : List α) (l2 : List β) (i : Nat) (d1 : α) (d2 : β)
    (h1 : i < l1.length) (h2 : i < l2.length) :
    (l1.zip l2).getD i (d1, d2) = (l1.getD i d1, l2.getD i d2) := by
  induction l1 generalizing l2 i with
  | nil => simp at h1
  | cons x xs ih =>
    cases l2 with
    | nil => simp at h2
    | cons y ys =>
      cases i with
      | zero => rfl
      | succ j =>
        simp only [List.length_cons, Nat.succ_lt_succ_iff] at h1 h2
        simpa [List.zip_cons_cons, List.getD_cons_succ] using ih ys j h1 h2

theorem length_insertAt (i : Nat) (a : α) (l : List α) :
    (insertAt i a l).length = l.length + 1 := by
  induction l generalizing i with
  | nil => cases i <;> rfl
  | cons x xs ih =>
    cases i with
    | zero => rfl
    | succ j => simp [insertAt, ih]

theorem getD_insertAt_self (i : Nat) (a d : α) (l : List α) (h : i ≤ l.length) :
    (insertAt i a l).getD i d = a := by
  induction l generalizing i with
  | nil =>
    have : i = 0 := Nat.le_zero.mp h
    subst this; rfl
  | cons x xs ih =>
    cases i with
    | zero => rfl
    | succ j =>
      simp only [List.length_cons, Nat.succ_le_succ_iff] at h
      simpa [insertAt, List.getD_cons_succ] using ih j h

theorem length_mapIdx (f : Nat → α → β) (s : Nat) (l : List α) :
    (mapIdx f s l).length = l.length := by
  induction l generalizing s with
  | nil => rfl
  | cons x xs ih => simp [mapIdx, ih]

theorem map_mapIdx (f : Nat → α → β) (g : β → γ) (s : Nat) (l : List α) :
    (mapIdx f s l).map g = mapIdx (fun i a => g (f i a)) s l := by
  induction l generalizing s with
  | nil => rfl
  | cons x xs ih => simp [mapIdx, ih]

theorem mapIdx_eq_map (g : α → β) (s : Nat) (l : List α) :
    mapIdx (fun _ a => g a) s l = l.map g := by
  induction l generalizing s with
  | nil => rfl
  | cons x xs ih => simp [mapIdx, ih]

theorem mapIdx_mapIdx (f : Nat → α → β) (g : Nat → β → γ) (s : Nat) (l : List α) :
    mapIdx g s (mapIdx f s l) = mapIdx (fun i a => g i (f i a)) s l := by
  induction l generalizing s with
  | nil => rfl
  | cons x xs ih => simp [mapIdx, ih]

theorem zip_mapIdx_self (g : Nat → α → γ) (s : Nat) (l : List α) :
    l.zip (mapIdx g s l) = mapIdx (fun i a => (a, g i a)) s l := by
  induction l generalizing s with
  | nil => rfl
  | cons x xs ih => simp [mapIdx, List.zip_cons_cons, ih]

theorem zip_mapIdx_mapIdx (f : Nat → α → β) (g : Nat → α → γ) (s : Nat)
    (l : List α) :
    (mapIdx f s l).zip (mapIdx g s l) = mapIdx (fun i a => (f i a, g i a)) s l := by
  induction l generalizing s with
  | nil => rfl
  | cons x xs ih => simp [mapIdx, List.zip_cons_cons, ih]

theorem take_mapIdx (f : Nat → α → β) (s k : Nat) (l : List α) :
    (mapIdx f s l).take k = mapIdx f s (l.take k) := by
  induction l generalizing s k with
  | nil => simp [mapIdx]
  | cons x xs ih =>
    cases k with
    | zero => rfl
    | succ j => simp [mapIdx, ih]

theorem mem_mapIdx {f : Nat → α → β} {s : Nat} {l : List α} {b : β}
    (h : b ∈ mapIdx f s l) : ∃ i a, a ∈ l ∧ b = f i a := by
  induction l generalizing s with
  | nil => simp [mapIdx] at h
  | cons x xs ih =>
    simp only [mapIdx, List.mem_cons] at h
    rcases h with h | h
    · exact ⟨s, x, List.mem_cons_self x xs, h⟩
    · obtain ⟨i, a, ha, hb⟩ := ih h
      exact ⟨i, a, List.mem_cons_of_mem x ha, hb⟩

theorem mapIdx_congr (f g : Nat → α → β) (s : Nat) (l : List α)
    (h : ∀ i a, f i a = g i a) : mapIdx f s l = mapIdx g s l := by
  induction l generalizing s with
  | nil => rfl
  | cons x xs ih => simp [mapIdx, h, ih]

theorem zip_append_left (l1 l1' : List α) (l2 : List β)
    (h : l2.length ≤ l1.length) : (l1 ++ l1').zip l2 = l1.zip l2 := by
  induction l1 generalizing l2 with
  | nil =>
    have : l2 = [] := List.length_eq_zero.mp (Nat.le_zero.mp h)
    subst this; simp
  | cons x xs ih =>
    cases l2 with
    | nil => simp
    | cons y ys =>
      simp only [List.length_cons, Nat.succ_le_succ_iff] at h
      simp [List.zip_cons_cons, ih _ h]

end ListLemmas

/-! ### Modular index arithmetic -/

theorem mod_add_cancel_inj {len a k k' : Nat} (hk : k < len) (hk' : k' < len)
    (h : (a + k) % len = (a + k') % len) : k = k' := by
  have h2 : k ≡ k' [MOD len] := Nat.ModEq.add_left_cancel' a h
  have h3 : k % len = k' % len := h2
  rwa [Nat.mod_eq_of_lt hk, Nat.mod_eq_of_lt hk'] at h3

theorem exists_mod_shift (len : Nat) (hlen : 0 < len) (a n : Nat) (hn : n < len) :
    ∃ k, k < len ∧ n = (a + k) % len := by
  refine ⟨(n + len - a % len) % len, Nat.mod_lt _ hlen, ?_⟩
  have hb : a % len < len := Nat.mod_lt _ hlen
  have hble : a % len ≤ n + len := le_of_lt (lt_of_lt_of_le hb (Nat.le_add_left len n))
  rw [Nat.add_mod_mod, ← Nat.mod_add_mod]
  have : a % len + (n + len - a % len) = n + len := by omega
  rw [this, Nat.add_mod_right]
  exact (Nat.mod_eq_of_lt hn).symm

theorem range'_one_concat (s n : Nat) :
    List.range' s (n + 1) = List.range' s n ++ [s + n] := by
  simpa using @List.range'_concat 1 s n

/-! ### The signer's and the verifier's challenge chains -/

section ChainLemmas

variable {F : Type} [CommRing F]

theorem sFold_succ (step : Nat → F → F) (len pi : Nat) (seed : F) (j : Nat) :
    sFold step len pi seed (j + 1) =
      (sFold step len pi seed j).set (((pi + (1 + j)) % len + 1) % len)
        (step ((pi + (1 + j)) % len)
          ((sFold step len pi seed j).getD ((pi + (1 + j)) % len) 0)) := by
  unfold sFold
  rw [range'_one_concat, List.foldl_append]
  rfl

theorem sFold_length (step : Nat → F → F) (len pi : Nat) (seed : F) (m : Nat) :
    (sFold step len pi seed m).length = len := by
  induction m with
  | zero => simp [sFold]
  | succ j ih => rw [sFold_succ, List.length_set]; exact ih

theorem sFold_getD (step : Nat → F → F) (len pi : Nat) (hpi : pi < len)
    (seed : F) :
    ∀ m, m ≤ len - 1 → ∀ k, k ≤ m →
      (sFold step len pi seed m).getD ((pi + 1 + k) % len) 0 =
        cseq step pi len seed k := by
  have hlen : 0 < len := by omega
  intro m
  induction m with
  | zero =>
    intro _ k hk
    have hk0 : k = 0 := Nat.le_zero.mp hk
    subst hk0
    show ((List.replicate len (0 : F)).set ((pi + 1) % len) seed).getD
      ((pi + 1 + 0) % len) 0 = seed
    rw [Nat.add_zero]
    exact getD_set_self _ _ _ _ (by simpa using Nat.mod_lt _ hlen)
  | succ j ih =>
    intro hj k hk
    have hj' : j ≤ len - 1 := Nat.le_of_succ_le hj
    rw [sFold_succ]
    have hoff : pi + (1 + j) = pi + 1 + j := by omega
    rw [hoff]
    have hidx : ((pi + 1 + j) % len + 1) % len = (pi + 1 + (j + 1)) % len := by
      rw [Nat.mod_add_mod, (by omega : pi + 1 + j + 1 = pi + 1 + (j + 1))]
    rw [hidx]
    rcases Nat.lt_or_ge k (j + 1) with hkj | hkj
    · -- k ≤ j : an index the new write leaves untouched
      have hkj' : k ≤ j := Nat.lt_succ_iff.mp hkj
      have hne : (pi + 1 + (j + 1)) % len ≠ (pi + 1 + k) % len := by
        intro h
        have := mod_add_cancel_inj (a := pi + 1)
          (by omega : j + 1 < len) (by omega : k < len) h
        omega
      rw [getD_set_ne _ _ _ _ _ hne]
      exact ih hj' k hkj'
    · -- k = j + 1 : the freshly written index
      have hkj' : k = j + 1 := Nat.le_antisymm hk hkj
      subst hkj'
      rw [getD_set_self _ _ _ _
        (by rw [sFold_length]; exact Nat.mod_lt _ hlen)]
      rw [ih hj' j (Nat.le_refl j)]
      rfl

theorem vFold_succ (step : Nat → F → F) (len : Nat) (c0 : F) (i : Nat) :
    vFold step len c0 (i + 1) =
      (vFold step len c0 i).set ((i + 1) % len)
        (step i ((vFold step len c0 i).getD i 0)) := by
  unfold vFold
  rw [List.range_succ, List.foldl_append]
  rfl

theorem vFold_length (step : Nat → F → F) (len : Nat) (c0 : F) (m : Nat) :
    (vFold step len c0 m).length = len := by
  induction m with
  | zero => simp [vFold]
  | succ j ih => rw [vFold_succ, List.length_set]; exact ih

theorem vFold_getD (step : Nat → F → F) (len : Nat) (hlen : 0 < len)
    (c : List F)
    (hlink : ∀ n, n < len → c.getD ((n + 1) % len) 0 = step n (c.getD n 0)) :
    ∀ m, m ≤ len → ∀ j, j < len → j ≤ m →
      (vFold step len (c.getD 0 0) m).getD j 0 = c.getD j 0 := by
  intro m
  induction m with
  | zero =>
    intro _ j _ hj
    have hj0 : j = 0 := Nat.le_zero.mp hj
    subst hj0
    exact getD_set_self _ _ _ _ (by simpa using hlen)
  | succ i ih =>
    intro hi j hjlen hj
    have hi' : i ≤ len := Nat.le_of_succ_le hi
    have hilen : i < len := hi
    rw [vFold_succ]
    have hval : step i ((vFold step len (c.getD 0 0) i).getD i 0) =
        c.getD ((i + 1) % len) 0 := by
      rw [ih hi' i hilen (Nat.le_refl i)]
      exact (hlink i hilen).symm
    by_cases hje : j = (i + 1) % len
    · subst hje
      rw [getD_set_self _ _ _ _
        (by rw [vFold_length]; exact Nat.mod_lt _ hlen)]
      exact hval
    · rw [getD_set_ne _ _ _ _ _ (Ne.symm hje)]
      have hjle : j ≤ i := by
        rcases Nat.lt_or_ge j (i + 1) with h | h
        · exact Nat.lt_succ_iff.mp h
        · exfalso
          have hji : j = i + 1 := by omega
          apply hje
          rw [hji, Nat.mod_eq_of_lt (by omega : i + 1 < len)]
      exact ih hi' j hjlen hjle

theorem vFold_final (step : Nat → F → F) (len : Nat) (hlen : 0 < len)
    (c : List F)
    (hlink : ∀ n, n < len → c.getD ((n + 1) % len) 0 = step n (c.getD n 0)) :
    (vFold step len (c.getD 0 0) len).getD 0 0 = c.getD 0 0 :=
  vFold_getD step len hlen c hlink len (Nat.le_refl len) 0 hlen (Nat.zero_le len)

theorem cseq_zero {F : Type} [CommRing F] (step : Nat → F → F) (pi len : Nat)
    (seed : F) : cseq step pi len seed 0 = seed := rfl

theorem cseq_succ {F : Type} [CommRing F] (step : Nat → F → F) (pi len : Nat)
    (seed : F) (k : Nat) :
    cseq step pi len seed (k + 1) =
      step ((pi + 1 + k) % len) (cseq step pi len seed k) := rfl

end ChainLemmas

/-! ### MLSAG verification lemmas -/

section MlsagLemmas

variable {F P E : Type}
variable [CommRing F] [AddCommGroup P] [Module F P]
variable [DecidableEq F] [DecidableEq P]

theorem close_smul (a c s : F) (X : P) :
    (a - c * s) • X + c • s • X = a • X := by
  rw [sub_smul, mul_smul]
  abel

theorem commit_sub_commit (rc psc : RevealedCommitment F) (ctx : Ctx F P)
    (hv : psc.value = rc.value) :
    rc.commit ctx - psc.commit ctx = (rc.blinding - psc.blinding) • ctx.G := by
  simp only [RevealedCommitment.commit, hv]
  rw [sub_smul]
  abel

theorem any_hidden_iff (ring : List (P × P)) (pcs : List P) (q : P)
    (h : ring.length = pcs.length) :
    ((ring.zip pcs).any (fun x => decide (x.1.2 ≠ x.2 - q)) = false) ↔
      ∀ i < ring.length, (ring.getD i (0, 0)).2 = pcs.getD i 0 - q := by
  induction ring generalizing pcs with
  | nil => simp
  | cons a as ih =>
    cases pcs with
    | nil => simp at h
    | cons b bs =>
      simp only [List.length_cons, Nat.add_right_cancel_iff] at h
      simp only [List.zip_cons_cons, List.any_cons, Bool.or_eq_false_iff,
        decide_eq_false_iff_not, not_not]
      rw [ih bs h]
      constructor
      · rintro ⟨h0, hrest⟩ i hi
        cases i with
        | zero => simpa using h0
        | succ j =>
          simpa [List.getD_cons_succ] using hrest j (Nat.lt_of_succ_lt_succ hi)
      · intro hall
        refine ⟨by simpa using hall 0 (Nat.succ_pos _), fun j hj => ?_⟩
        simpa [List.getD_cons_succ] using hall (j + 1) (Nat.succ_lt_succ hj)

theorem verify_eq_ok (s : MlsagSignature F P) (ctx : Ctx F P) (msg : List Nat)
    (pcs : List P)
    (h1 : s.ring.length = pcs.length)
    (h2 : (s.ring.zip pcs).any
      (fun x => decide (x.1.2 ≠ x.2 - s.pseudo_commitment)) = false)
    (h3 : s.key_image.onCurve = true)
    (h4 : s.ring.length ≠ 0)
    (h5 : ¬ s.r.length < s.ring.length)
    (h6 : (s.cprime ctx msg).getD 0 0 = s.c0) :
    s.verify (E := E) ctx msg pcs = some (.ok ()) := by
  unfold MlsagSignature.verify
  rw [if_neg (fun hne => hne h1), if_neg (by rw [h2]; exact Bool.false_ne_true),
    if_neg (by simp [AffinePoint.is_on_curve, h3]), if_neg h4, if_neg h5,
    if_neg (fun hne => hne h6.symm)]

theorem verify_eq_len_err (s : MlsagSignature F P) (ctx : Ctx F P)
    (msg : List Nat) (pcs : List P) (h1 : s.ring.length ≠ pcs.length) :
    s.verify (E := E) ctx msg pcs =
      some (.error .ExpectedAPublicCommitmentsForEachRingEntry) := by
  unfold MlsagSignature.verify
  rw [if_pos h1]

theorem verify_eq_hidden_err (s : MlsagSignature F P) (ctx : Ctx F P)
    (msg : List Nat) (pcs : List P) (h1 : s.ring.length = pcs.length)
    (h2 : (s.ring.zip pcs).any
      (fun x => decide (x.1.2 ≠ x.2 - s.pseudo_commitment)) = true) :
    s.verify (E := E) ctx msg pcs =
      some (.error .InvalidHiddenCommitmentInRing) := by
  unfold MlsagSignature.verify
  rw [if_neg (fun hne => hne h1), if_pos h2]

theorem verify_eq_keyimage_err (s : MlsagSignature F P) (ctx : Ctx F P)
    (msg : List Nat) (pcs : List P) (h1 : s.ring.length = pcs.length)
    (h2 : (s.ring.zip pcs).any
      (fun x => decide (x.1.2 ≠ x.2 - s.pseudo_commitment)) = false)
    (h3 : s.key_image.onCurve = false) :
    s.verify (E := E) ctx msg pcs = some (.error .KeyImageNotOnCurve) := by
  unfold MlsagSignature.verify
  rw [if_neg (fun hne => hne h1), if_neg (by rw [h2]; exact Bool.false_ne_true),
    if_pos (by simp [AffinePoint.is_on_curve, h3])]

theorem verify_eq_ring_err (s : MlsagSignature F P) (ctx : Ctx F P)
    (msg : List Nat) (pcs : List P) (h1 : s.ring.length = pcs.length)
    (h2 : (s.ring.zip pcs).any
      (fun x => decide (x.1.2 ≠ x.2 - s.pseudo_commitment)) = false)
    (h3 : s.key_image.onCurve = true)
    (h4 : s.ring.length ≠ 0)
    (h5 : ¬ s.r.length < s.ring.length)
    (h6 : s.c0 ≠ (s.cprime ctx msg).getD 0 0) :
    s.verify (E := E) ctx msg pcs = some (.error .InvalidRingSignature) := by
  unfold MlsagSignature.verify
  rw [if_neg (fun hne => hne h1), if_neg (by rw [h2]; exact Bool.false_ne_true),
    if_neg (by simp [AffinePoint.is_on_curve, h3]), if_neg h4, if_neg h5,
    if_pos h6]

theorem verify_eq_none_empty (s : MlsagSignature F P) (ctx : Ctx F P)
    (msg : List Nat) (pcs : List P) (h1 : s.ring.length = pcs.length)
    (h2 : (s.ring.zip pcs).any
      (fun x => decide (x.1.2 ≠ x.2 - s.pseudo_commitment)) = false)
    (h3 : s.key_image.onCurve = true)
    (h4 : s.ring.length = 0) :
    s.verify (E := E) ctx msg pcs = none := by
  unfold MlsagSignature.verify
  rw [if_neg (fun hne => hne h1), if_neg (by rw [h2]; exact Bool.false_ne_true),
    if_neg (by simp [AffinePoint.is_on_curve, h3]), if_pos h4]

theorem verify_eq_none_short (s : MlsagSignature F P) (ctx : Ctx F P)
    (msg : List Nat) (pcs : List P) (h1 : s.ring.length = pcs.length)
    (h2 : (s.ring.zip pcs).any
      (fun x => decide (x.1.2 ≠ x.2 - s.pseudo_commitment)) = false)
    (h3 : s.key_image.onCurve = true)
    (h4 : s.ring.length ≠ 0)
    (h5 : s.r.length < s.ring.length) :
    s.verify (E := E) ctx msg pcs = none := by
  unfold MlsagSignature.verify
  rw [if_neg (fun hne => hne h1), if_neg (by rw [h2]; exact Bool.false_ne_true),
    if_neg (by simp [AffinePoint.is_on_curve, h3]), if_neg h4, if_pos h5]

/-- Completeness of one MLSAG round trip: a signature produced by
`MlsagMaterial::sign` with a pseudo-commitment opening for the same value
verifies against the commitment list the signer itself used. -/
theorem mlsag_sign_verify_ok (m : MlsagMaterial F P) (ctx : Ctx F P)
    (msg : List Nat) (psc : RevealedCommitment F) (rand : SigRand F)
    (hval : psc.value = m.true_input.revealed_commitment.value) :
    (m.sign ctx msg psc rand).verify (E := E) ctx msg
      (m.commitments ctx (rand.piRaw % m.count_inputs)) = some (.ok ()) := by
  set pi := rand.piRaw % (m.decoy_inputs.length + 1) with hpidef
  set pks := m.public_keys ctx pi with hpksdef
  set cms := m.commitments ctx pi with hcmsdef
  set pc := psc.commit (P := P) ctx with hpcdef
  set ring := (pks.zip cms).map (fun x => (x.1, x.2 - pc)) with hringdef
  set ki := m.true_input.key_image (P := P) ctx with hkidef
  set r0 := (List.range ring.length).map rand.rr with hr0def
  set seed := ctx.c_hash msg (rand.alpha.1 • ctx.G) (rand.alpha.2 • ctx.G)
      (rand.alpha.1 • ctx.hash_to_curve (ring.getD pi (0, 0)).1) with hseeddef
  set stepS := mlsagStep ctx msg ki ring r0 with hstepSdef
  set cS := sFold stepS ring.length pi seed (ring.length - 1) with hcSdef
  set sk : F × F := (m.true_input.secret_key,
    m.true_input.revealed_commitment.blinding - psc.blinding) with hskdef
  set rF := r0.set pi (rand.alpha.1 - cS.getD pi 0 * sk.1,
    rand.alpha.2 - cS.getD pi 0 * sk.2) with hrFdef
  have hsig : m.sign ctx msg psc rand =
      { c0 := cS.getD 0 0, r := rF, key_image := AffinePoint.ofPoint ki,
        ring := ring, pseudo_commitment := pc } := rfl
  -- lengths
  have hpks_len : pks.length = m.decoy_inputs.length + 1 := by
    rw [hpksdef]
    simp [MlsagMaterial.public_keys, length_insertAt]
  have hcms_len : cms.length = m.decoy_inputs.length + 1 := by
    rw [hcmsdef]
    simp [MlsagMaterial.commitments, length_insertAt]
  have hlen : ring.length = m.decoy_inputs.length + 1 := by
    rw [hringdef]
    simp [hpks_len, hcms_len]
  have hlen0 : 0 < ring.length := by omega
  have hpi_small : pi < m.decoy_inputs.length + 1 := Nat.mod_lt _ (by omega)
  have hpilt : pi < ring.length := by omega
  have hr0_len : r0.length = ring.length := by
    rw [hr0def]; simp
  have hrF_len : rF.length = ring.length := by
    rw [hrFdef]; simp [hr0_len]
  -- ring entries
  have hringget : ∀ i, i < ring.length →
      ring.getD i (0, 0) = (pks.getD i 0, cms.getD i 0 - pc) := by
    intro i hi
    rw [hringdef, getD_map _ _ _ ((0 : P), (0 : P)) _
      (by simp [hpks_len, hcms_len]; omega),
      getD_zip _ _ _ _ _ (by omega) (by omega)]
  have hpks_pi : pks.getD pi 0 = m.true_input.public_key ctx := by
    rw [hpksdef]
    exact getD_insertAt_self _ _ _ _ (by simp; omega)
  have hcms_pi : cms.getD pi 0 = m.true_input.revealed_commitment.commit ctx := by
    rw [hcmsdef]
    exact getD_insertAt_self _ _ _ _ (by simp; omega)
  have hring_pi : ring.getD pi (0, 0) =
      (m.true_input.public_key ctx, sk.2 • ctx.G) := by
    rw [hringget pi hpilt, hpks_pi, hcms_pi, hpcdef,
      commit_sub_commit _ _ _ hval]
  -- the hidden-commitment loop accepts
  have hany : (ring.zip cms).any (fun x => decide (x.1.2 ≠ x.2 - pc)) = false := by
    rw [any_hidden_iff _ _ _ (by omega)]
    intro i hi
    rw [hringget i hi]
  -- the signer's chain values
  have hsget : ∀ k, k ≤ ring.length - 1 →
      cS.getD ((pi + 1 + k) % ring.length) 0 =
        cseq stepS pi ring.length seed k := by
    intro k hk
    rw [hcSdef]
    exact sFold_getD stepS ring.length pi hpilt seed (ring.length - 1)
      (Nat.le_refl _) k hk
  have hcpi : cS.getD pi 0 = cseq stepS pi ring.length seed (ring.length - 1) := by
    have h := hsget (ring.length - 1) (Nat.le_refl _)
    rw [(by omega : pi + 1 + (ring.length - 1) = pi + ring.length),
      Nat.add_mod_right, Nat.mod_eq_of_lt hpilt] at h
    exact h
  -- link: every verifier step reproduces the signer's chain
  have hlink : ∀ n, n < ring.length →
      cS.getD ((n + 1) % ring.length) 0 =
        mlsagStep ctx msg ki ring rF n (cS.getD n 0) := by
    intro n hn
    obtain ⟨k, hk, hnk⟩ := exists_mod_shift ring.length hlen0 (pi + 1) n hn
    have hk1 : k ≤ ring.length - 1 := by omega
    have hpieq : (pi + 1 + (ring.length - 1)) % ring.length = pi := by
      rw [(by omega : pi + 1 + (ring.length - 1) = pi + ring.length),
        Nat.add_mod_right, Nat.mod_eq_of_lt hpilt]
    by_cases hkl : k = ring.length - 1
    · -- the true position closes the loop algebraically
      have hnpi : n = pi := by rw [hnk, hkl, hpieq]
      subst hnpi
      have hlhs : cS.getD ((pi + 1) % ring.length) 0 = seed := by
        have h := hsget 0 (by omega)
        rw [Nat.add_zero] at h
        rw [h, cseq_zero]
      rw [hlhs]
      have hrF_pi : rF.getD pi (0, 0) =
          (rand.alpha.1 - cS.getD pi 0 * sk.1,
           rand.alpha.2 - cS.getD pi 0 * sk.2) := by
        rw [hrFdef]
        exact getD_set_self _ _ _ _ (by omega)
      have hpk : m.true_input.public_key (P := P) ctx = sk.1 • ctx.G := rfl
      have hki2 : ki = sk.1 • ctx.hash_to_curve (sk.1 • ctx.G) := rfl
      unfold mlsagStep
      rw [hrF_pi, hring_pi, hseeddef, hring_pi]
      simp only [hpk, hki2]
      rw [close_smul, close_smul, close_smul]
    · -- a decoy position: the recurrence is the definition of the chain
      have hk2 : k < ring.length - 1 := lt_of_le_of_ne hk1 hkl
      have hnpi : n ≠ pi := by
        intro h
        apply hkl
        refine mod_add_cancel_inj (a := pi + 1) hk (by omega) ?_
        rw [← hnk, h, hpieq]
      have hn1 : (n + 1) % ring.length = (pi + 1 + (k + 1)) % ring.length := by
        rw [hnk, Nat.mod_add_mod,
          (by omega : pi + 1 + k + 1 = pi + 1 + (k + 1))]
      have hgn : cS.getD n 0 = cseq stepS pi ring.length seed k := by
        rw [hnk]
        exact hsget k (by omega)
      rw [hn1, hsget (k + 1) (by omega), hgn, cseq_succ, ← hnk]
      show stepS n (cseq stepS pi ring.length seed k) = _
      rw [hstepSdef]
      unfold mlsagStep
      have hrn : rF.getD n (0, 0) = r0.getD n (0, 0) := by
        rw [hrFdef]
        exact getD_set_ne _ _ _ _ _ (Ne.symm hnpi)
      rw [hrn]
  -- the verifier's chain ends where it started
  have hchain :
      (MlsagSignature.cprime
        { c0 := cS.getD 0 0, r := rF, key_image := AffinePoint.ofPoint ki,
          ring := ring, pseudo_commitment := pc } ctx msg).getD 0 0 =
      cS.getD 0 0 := by
    show (vFold (mlsagStep ctx msg ki ring rF) ring.length (cS.getD 0 0)
      ring.length).getD 0 0 = cS.getD 0 0
    exact vFold_final _ _ hlen0 cS hlink
  rw [hsig]
  show MlsagSignature.verify _ ctx msg cms = some (.ok ())
  exact verify_eq_ok _ ctx msg cms (show ring.length = cms.length by omega) hany
    rfl (show ring.length ≠ 0 by omega)
    (show ¬ rF.length < ring.length by simp [hrF_len]) hchain

end MlsagLemmas

/-! ### RingCT transaction lemmas -/

section RingCtLemmas

variable {F P T RP E : Type}
variable [CommRing F] [AddCommGroup P] [Module F P]
variable [DecidableEq F] [DecidableEq P]

theorem sign_pseudo_commitment (m : MlsagMaterial F P) (ctx : Ctx F P)
    (msg : List Nat) (psc : RevealedCommitment F) (rand : SigRand F) :
    (m.sign ctx msg psc rand).pseudo_commitment = psc.commit ctx := rfl

theorem verifyMlsags_all_ok (ctx : Ctx F P) (msg : List Nat)
    (l : List (MlsagSignature F P × List P))
    (h : ∀ x ∈ l, x.1.verify (E := E) ctx msg x.2 = some (.ok ())) :
    verifyMlsags (E := E) ctx msg l = some (.ok ()) := by
  induction l with
  | nil => rfl
  | cons a rest ih =>
    obtain ⟨s, pcs⟩ := a
    have hs := h (s, pcs) (List.mem_cons_self _ _)
    simp only [verifyMlsags, hs]
    exact ih fun x hx => h x (List.mem_cons_of_mem _ hx)

theorem proveAll_verify (rpctx : RpCtx F P T RP E) (ctx : Ctx F P)
    (hprove : ∀ ts (v : Nat) (b : F), v < 2 ^ 64 → ∃ ts' rp,
      rpctx.proveSingle ts v b = .ok (ts', rp, b • ctx.G + (v : F) • ctx.H))
    (hverify : ∀ ts (v : Nat) (b : F) ts' rp c,
      rpctx.proveSingle ts v b = .ok (ts', rp, c) →
      rpctx.verifySingle ts rp c = .ok ts') :
    ∀ (rcs : List (RevealedCommitment F)) (ts : T),
      (∀ rc ∈ rcs, rc.value < 2 ^ 64) →
      ∃ ts' ops, proveAll rpctx ts rcs = .ok (ts', ops) ∧
        verifyRangeProofs rpctx ts ops = .ok ts' ∧
        ops.map (fun o => o.commitment) =
          rcs.map (fun rc => rc.commit ctx) := by
  intro rcs
  induction rcs with
  | nil => exact fun ts _ => ⟨ts, [], rfl, rfl, rfl⟩
  | cons rc rest ih =>
    intro ts hlt
    obtain ⟨ts1, rp, hp⟩ :=
      hprove ts rc.value rc.blinding (hlt rc (List.mem_cons_self _ _))
    obtain ⟨ts2, ops, hpa, hva, hcm⟩ :=
      ih ts1 (fun x hx => hlt x (List.mem_cons_of_mem _ hx))
    refine ⟨ts2, OutputProof.mk rp
      (rc.blinding • ctx.G + (rc.value : F) • ctx.H) :: ops, ?_, ?_, ?_⟩
    · simp only [proveAll, hp, hpa]
    · have hv := hverify ts rc.value rc.blinding ts1 rp _ hp
      simp only [verifyRangeProofs, hv, hva]
    · simp only [List.map_cons, hcm, RevealedCommitment.commit]

theorem sum_map_commit (ctx : Ctx F P) (l : List (RevealedCommitment F)) :
    (l.map fun rc => rc.commit (P := P) ctx).sum =
      ((l.map fun rc => rc.blinding).sum) • ctx.G +
        ((l.map fun rc => (rc.value : F)).sum) • ctx.H := by
  induction l with
  | nil => simp
  | cons rc rest ih =>
    rw [List.map_cons, List.sum_cons, ih, List.map_cons, List.sum_cons,
      List.map_cons, List.sum_cons]
    simp only [RevealedCommitment.commit, add_smul]
    abel

theorem ringct_sign_eq (mat : RingCtMaterial F P) (ctx : Ctx F P)
    (rpctx : RpCtx F P T RP E) (pseudoBlind outBlind : Nat → F)
    (sigRand : Nat → SigRand F) (last_output : Output P)
    (hlast : mat.outputs.getLast? = some last_output)
    (ts' : T) (ops : List (OutputProof P RP))
    (hpa : proveAll rpctx rpctx.newT
      (ringctOutRcs mat pseudoBlind outBlind last_output) = .ok (ts', ops)) :
    mat.sign ctx rpctx pseudoBlind outBlind sigRand =
      some (.ok
        (ringctMsg mat ctx rpctx pseudoBlind outBlind last_output ops,
         { mlsags := ringctMlsags mat ctx
             (ringctMsg mat ctx rpctx pseudoBlind outBlind last_output ops)
             pseudoBlind sigRand,
           outputs := ops },
         ringctOutRcs mat pseudoBlind outBlind last_output)) := by
  simp only [RingCtMaterial.sign, hlast, hpa]

theorem mlsags_pseudo_sum (mat : RingCtMaterial F P) (ctx : Ctx F P)
    (msg : List Nat) (pseudoBlind : Nat → F) (sigRand : Nat → SigRand F) :
    ((ringctMlsags mat ctx msg pseudoBlind sigRand).map
      fun s => s.pseudo_commitment).sum =
      ((ringctPseudos mat pseudoBlind).map fun rc => rc.commit ctx).sum := by
  unfold ringctMlsags ringctPseudos
  rw [zip_mapIdx_self, mapIdx_mapIdx, map_mapIdx, map_mapIdx]
  rfl

theorem outrcs_blinding_sum (mat : RingCtMaterial F P)
    (pseudoBlind outBlind : Nat → F) (last_output : Output P) :
    ((ringctOutRcs mat pseudoBlind outBlind last_output).map
      fun rc => rc.blinding).sum =
      ((ringctPseudos mat pseudoBlind).map fun rc => rc.blinding).sum := by
  unfold ringctOutRcs ringctCorrection
  rw [List.map_append, List.sum_append]
  simp only [List.map_cons, List.map_nil, List.sum_cons, List.sum_nil]
  ring

theorem pseudos_value_cast_sum (mat : RingCtMaterial F P)
    (pseudoBlind : Nat → F) :
    ((ringctPseudos mat pseudoBlind).map fun rc => (rc.value : F)).sum =
      (mat.inputs.map fun m =>
        ((m.true_input.revealed_commitment.value : Nat) : F)).sum := by
  unfold ringctPseudos
  rw [map_mapIdx]
  rw [mapIdx_congr
    (fun i a => (((a.true_input.random_pseudo_commitment
      (pseudoBlind i)).value : Nat) : F))
    (fun _ m => ((m.true_input.revealed_commitment.value : Nat) : F)) 0
    mat.inputs (fun i a => rfl), mapIdx_eq_map]

theorem outrcs_value_cast_sum (mat : RingCtMaterial F P)
    (pseudoBlind outBlind : Nat → F) (last_output : Output P)
    (hlast : mat.outputs.getLast? = some last_output) :
    ((ringctOutRcs mat pseudoBlind outBlind last_output).map
      fun rc => (rc.value : F)).sum =
      (mat.outputs.map fun o => ((o.amount : Nat) : F)).sum := by
  have hne : mat.outputs ≠ [] := by
    intro h
    rw [h] at hlast
    simp at hlast
  have hlast2 : last_output = mat.outputs.getLast hne := by
    rw [List.getLast?_eq_getLast _ hne] at hlast
    exact (Option.some.inj hlast).symm
  unfold ringctOutRcs ringctDrawn
  rw [List.map_append, List.sum_append, take_mapIdx, map_mapIdx]
  rw [mapIdx_congr
    (fun i a => (((a.random_commitment (outBlind i)).value : Nat) : F))
    (fun _ o => ((o.amount : Nat) : F)) 0
    (mat.outputs.take (mat.outputs.length - 1)) (fun i a => rfl),
    mapIdx_eq_map]
  conv_rhs => rw [← List.dropLast_append_getLast hne]
  rw [List.map_append, List.sum_append, List.dropLast_eq_take]
  simp [hlast2]

theorem ringct_mlsags_zip (mat : RingCtMaterial F P) (ctx : Ctx F P)
    (msg : List Nat) (pseudoBlind : Nat → F) (sigRand : Nat → SigRand F) :
    (ringctMlsags mat ctx msg pseudoBlind sigRand).zip
      (pcssCorrect mat ctx sigRand) =
      mapIdx (fun i m =>
        (m.sign ctx msg (m.true_input.random_pseudo_commitment (pseudoBlind i))
          (sigRand i),
         m.commitments ctx ((sigRand i).piRaw % m.count_inputs))) 0
        mat.inputs := by
  unfold ringctMlsags ringctPseudos pcssCorrect
  rw [zip_mapIdx_self, mapIdx_mapIdx, zip_mapIdx_mapIdx]

theorem ringct_rings_verify (mat : RingCtMaterial F P) (ctx : Ctx F P)
    (msg : List Nat) (pseudoBlind : Nat → F) (sigRand : Nat → SigRand F) :
    ∀ x ∈ (ringctMlsags mat ctx msg pseudoBlind sigRand).zip
        (pcssCorrect mat ctx sigRand),
      x.1.verify (E := E) ctx msg x.2 = some (.ok ()) := by
  intro x hx
  rw [ringct_mlsags_zip] at hx
  obtain ⟨i, m, _, hxeq⟩ := mem_mapIdx hx
  subst hxeq
  exact mlsag_sign_verify_ok m ctx msg _ (sigRand i) rfl

theorem ringct_verify_eq_ok (tx : RingCtTransaction F P RP) (ctx : Ctx F P)
    (rpctx : RpCtx F P T RP E) (msg : List Nat) (pcss : List (List P))
    (h1 : verifyMlsags (E := E) ctx msg (tx.mlsags.zip pcss) =
      some (.ok ()))
    (h2 : ∃ ts', verifyRangeProofs rpctx rpctx.newT tx.outputs = .ok ts')
    (h3 : (tx.mlsags.map fun s => s.pseudo_commitment).sum =
      (tx.outputs.map fun o => o.commitment).sum) :
    tx.verify ctx rpctx msg pcss = some (.ok ()) := by
  obtain ⟨ts', hts⟩ := h2
  simp only [RingCtTransaction.verify, h1, hts]
  rw [if_neg (fun hne => hne h3)]

theorem proveAll_commitments (rpctx : RpCtx F P T RP E) (ctx : Ctx F P)
    (hcommit : ∀ ts (v : Nat) (b : F) ts' rp c,
      rpctx.proveSingle ts v b = .ok (ts', rp, c) →
      c = b • ctx.G + (v : F) • ctx.H) :
    ∀ (rcs : List (RevealedCommitment F)) (ts ts' : T)
      (ops : List (OutputProof P RP)),
      proveAll rpctx ts rcs = .ok (ts', ops) →
      ops.map (fun o => o.commitment) = rcs.map (fun rc => rc.commit ctx) := by
  intro rcs
  induction rcs with
  | nil =>
    intro ts ts' ops h
    simp only [proveAll, Except.ok.injEq, Prod.mk.injEq] at h
    rw [← h.2]
    rfl
  | cons rc rest ih =>
    intro ts ts' ops h
    unfold proveAll at h
    split at h
    · exact absurd h (by simp)
    · next ts1 rp c hps =>
      split at h
      · exact absurd h (by simp)
      · next ts2 ops' hpa =>
        simp only [Except.ok.injEq, Prod.mk.injEq] at h
        rw [← h.2]
        simp only [List.map_cons]
        rw [ih _ _ _ hpa, hcommit _ _ _ _ _ _ hps]
        rfl

theorem ringct_sign_inv (mat : RingCtMaterial F P) (ctx : Ctx F P)
    (rpctx : RpCtx F P T RP E) (pseudoBlind outBlind : Nat → F)
    (sigRand : Nat → SigRand F) (msg : List Nat)
    (tx : RingCtTransaction F P RP) (rcs : List (RevealedCommitment F))
    (h : mat.sign ctx rpctx pseudoBlind outBlind sigRand =
      some (.ok (msg, tx, rcs))) :
    ∃ last_output ts' ops,
      mat.outputs.getLast? = some last_output ∧
      proveAll rpctx rpctx.newT
        (ringctOutRcs mat pseudoBlind outBlind last_output) = .ok (ts', ops) ∧
      msg = ringctMsg mat ctx rpctx pseudoBlind outBlind last_output ops ∧
      tx = { mlsags := ringctMlsags mat ctx msg pseudoBlind sigRand,
             outputs := ops } ∧
      rcs = ringctOutRcs mat pseudoBlind outBlind last_output := by
  unfold RingCtMaterial.sign at h
  split at h
  · exact absurd h (by simp)
  · next last_output hl =>
    split at h
    · exact absurd h (by simp)
    · next ts' ops hpa =>
      simp only [Option.some.injEq, Except.ok.injEq, Prod.mk.injEq] at h
      obtain ⟨hmsg, htx, hrcs⟩ := h
      exact ⟨last_output, ts', ops, hl, hpa, hmsg.symm,
        by rw [← htx, ← hmsg], hrcs.symm⟩

end RingCtLemmas

/-! ### The claims -/

section Claims

variable {F P T RP E : Type}
variable [CommRing F] [AddCommGroup P] [Module F P]
variable [DecidableEq F] [DecidableEq P]

/-- Claim C1: Completeness.  For every `RingCtMaterial` whose inputs and
outputs conserve value (sum of true-input values equals sum of output
amounts) and every output amount in `[0, 2^64)`, for every RNG behaviour,
and given the range-proof library's contract (`prove_single` succeeds on
an in-range value and returns the Pedersen commitment; `verify_single`
accepts what `prove_single` produced at the same transcript state),
`RingCtTransaction::verify` applied to the message and transaction
returned by `RingCtMaterial::sign`, with the correct per-ring ledger
commitments, returns Ok. -/
theorem C1_ringct_completeness (mat : RingCtMaterial F P) (ctx : Ctx F P)
    (rpctx : RpCtx F P T RP E) (pseudoBlind outBlind : Nat → F)
    (sigRand : Nat → SigRand F)
    (hprove : ∀ ts (v : Nat) (b : F), v < 2 ^ 64 → ∃ ts' rp,
      rpctx.proveSingle ts v b = .ok (ts', rp, b • ctx.G + (v : F) • ctx.H))
    (hverify : ∀ ts (v : Nat) (b : F) ts' rp c,
      rpctx.proveSingle ts v b = .ok (ts', rp, c) →
      rpctx.verifySingle ts rp c = .ok ts')
    (hne : mat.outputs ≠ [])
    (hamt : ∀ o ∈ mat.outputs, o.amount < 2 ^ 64)
    (hcons : (mat.inputs.map fun m =>
        m.true_input.revealed_commitment.value).sum =
      (mat.outputs.map fun o => o.amount).sum) :
    ∃ msg tx rcs,
      mat.sign ctx rpctx pseudoBlind outBlind sigRand =
        some (.ok (msg, tx, rcs)) ∧
      tx.verify ctx rpctx msg (pcssCorrect mat ctx sigRand) =
        some (.ok ()) := by
  obtain ⟨last, hlast⟩ : ∃ l, mat.outputs.getLast? = some l :=
    ⟨mat.outputs.getLast hne, List.getLast?_eq_getLast _ hne⟩
  have hlastmem : last ∈ mat.outputs := by
    have h2 := List.getLast?_eq_getLast mat.outputs hne
    rw [hlast] at h2
    rw [Option.some.inj h2]
    exact List.getLast_mem hne
  have hltall : ∀ rc ∈ ringctOutRcs mat pseudoBlind outBlind last,
      rc.value < 2 ^ 64 := by
    intro rc hrc
    unfold ringctOutRcs ringctDrawn at hrc
    rcases List.mem_append.mp hrc with h | h
    · rw [take_mapIdx] at h
      obtain ⟨i, o, ho, hrceq⟩ := mem_mapIdx h
      subst hrceq
      exact hamt o (List.take_subset _ _ ho)
    · rw [List.mem_singleton] at h
      subst h
      exact hamt last hlastmem
  obtain ⟨tsf, ops, hpa, hva, hcm⟩ :=
    proveAll_verify rpctx ctx hprove hverify _ rpctx.newT hltall
  refine ⟨_, _, _,
    ringct_sign_eq mat ctx rpctx pseudoBlind outBlind sigRand last hlast tsf
      ops hpa, ?_⟩
  apply ringct_verify_eq_ok
  · exact verifyMlsags_all_ok ctx _ _
      (ringct_rings_verify mat ctx _ pseudoBlind sigRand)
  · exact ⟨tsf, hva⟩
  · show ((ringctMlsags mat ctx
        (ringctMsg mat ctx rpctx pseudoBlind outBlind last ops) pseudoBlind
        sigRand).map fun s => s.pseudo_commitment).sum =
      (ops.map fun o => o.commitment).sum
    rw [mlsags_pseudo_sum, hcm,
      sum_map_commit ctx (ringctPseudos mat pseudoBlind),
      sum_map_commit ctx (ringctOutRcs mat pseudoBlind outBlind last),
      outrcs_blinding_sum,
      outrcs_value_cast_sum mat pseudoBlind outBlind last hlast,
      pseudos_value_cast_sum]
    have hc : (mat.inputs.map fun m =>
        ((m.true_input.revealed_commitment.value : Nat) : F)).sum =
        (mat.outputs.map fun o => ((o.amount : Nat) : F)).sum := by
      have h2 := congrArg (fun n : Nat => (n : F)) hcons
      simpa [Nat.cast_list_sum, List.map_map, Function.comp_def] using h2
    rw [hc]

/-- Witness for C1 at a concrete instance: one input of value 3 with one
decoy, one output of amount 3, the trivial range-proof backend. -/
theorem C1_witness :
    ∃ msg tx rcs,
      Conc.mat1.sign Conc.ctx Conc.rpctx (fun _ => 5) (fun _ => 6) Conc.rand1 =
        some (.ok (msg, tx, rcs)) ∧
      tx.verify Conc.ctx Conc.rpctx msg
        (pcssCorrect Conc.mat1 Conc.ctx Conc.rand1) = some (.ok ()) :=
  C1_ringct_completeness Conc.mat1 Conc.ctx Conc.rpctx (fun _ => 5)
    (fun _ => 6) Conc.rand1
    (fun _ v b _ => ⟨(), (), rfl⟩)
    (fun _ _ _ _ _ _ h => by cases h; rfl)
    (by decide) (by decide) (by decide)

/-- Claim C2, counterexample: a transaction produced by
`RingCtMaterial::sign` from an input of value 0 and an output of amount 1
(the amounts do NOT conserve value) whose pseudo-commitment sum differs
from its output-commitment sum, refuting "for every signed transaction,
regardless of the caller's input/output amounts".  The blinding correction
equalizes only the `G`-components; the `H`-components carry the values. -/
theorem C2_counterexample :
    Conc.mat2.sign Conc.ctx Conc.rpctx (fun _ => 5) (fun _ => 6) Conc.rand1 =
      some (.ok (Conc.c2res.1, Conc.c2res.2.1, Conc.c2res.2.2)) ∧
    (Conc.c2res.2.1.mlsags.map fun s => s.pseudo_commitment).sum ≠
      (Conc.c2res.2.1.outputs.map fun o => o.commitment).sum := by
  exact ⟨rfl, by decide⟩

/-- Claim C2 (amended): Balance.  For every transaction that
`RingCtMaterial::sign` actually produces, given the library fact that a
successful `prove_single` returns the Pedersen commitment of its value
and blinding, the sum over mlsags of `pseudo_commitment` equals the sum
over outputs of `commitment` as group elements PROVIDED the true-input
values and the output amounts have equal sums; the last output's blinding
correction equalizes the `G`-components, and value conservation is what
equalizes the `H`-components. -/
theorem C2_balance_amended (mat : RingCtMaterial F P) (ctx : Ctx F P)
    (rpctx : RpCtx F P T RP E) (pseudoBlind outBlind : Nat → F)
    (sigRand : Nat → SigRand F) (msg : List Nat)
    (tx : RingCtTransaction F P RP) (rcs : List (RevealedCommitment F))
    (hcommit : ∀ ts (v : Nat) (b : F) ts' rp c,
      rpctx.proveSingle ts v b = .ok (ts', rp, c) →
      c = b • ctx.G + (v : F) • ctx.H)
    (hsig : mat.sign ctx rpctx pseudoBlind outBlind sigRand =
      some (.ok (msg, tx, rcs)))
    (hcons : (mat.inputs.map fun m =>
        m.true_input.revealed_commitment.value).sum =
      (mat.outputs.map fun o => o.amount).sum) :
    (tx.mlsags.map fun s => s.pseudo_commitment).sum =
      (tx.outputs.map fun o => o.commitment).sum := by
  obtain ⟨last, ts', ops, hlast, hpa, hmsg, htx, hrcs⟩ :=
    ringct_sign_inv mat ctx rpctx pseudoBlind outBlind sigRand msg tx rcs hsig
  subst htx
  have hcm := proveAll_commitments rpctx ctx hcommit _ _ _ _ hpa
  show ((ringctMlsags mat ctx msg pseudoBlind sigRand).map
      fun s => s.pseudo_commitment).sum = (ops.map fun o => o.commitment).sum
  rw [mlsags_pseudo_sum, hcm,
    sum_map_commit ctx (ringctPseudos mat pseudoBlind),
    sum_map_commit ctx (ringctOutRcs mat pseudoBlind outBlind last),
    outrcs_blinding_sum,
    outrcs_value_cast_sum mat pseudoBlind outBlind last hlast,
    pseudos_value_cast_sum]
  have hc : (mat.inputs.map fun m =>
      ((m.true_input.revealed_commitment.value : Nat) : F)).sum =
      (mat.outputs.map fun o => ((o.amount : Nat) : F)).sum := by
    have h2 := congrArg (fun n : Nat => (n : F)) hcons
    simpa [Nat.cast_list_sum, List.map_map, Function.comp_def] using h2
  rw [hc]

/-- Witness for the amended C2 at a value-conserving concrete instance. -/
theorem C2_witness :
    (Conc.c2okres.2.1.mlsags.map fun s => s.pseudo_commitment).sum =
      (Conc.c2okres.2.1.outputs.map fun o => o.commitment).sum :=
  C2_balance_amended Conc.mat1 Conc.ctx Conc.rpctx (fun _ => 5) (fun _ => 6)
    Conc.rand1 Conc.c2okres.1 Conc.c2okres.2.1 Conc.c2okres.2.2
    (fun _ _ _ _ _ _ h => by cases h; rfl)
    rfl (by decide)

/-- Claim C3: `MlsagSignature::verify` returns Ok iff all checks pass,
and on failure returns the error of the first failing check in order:
`ExpectedAPublicCommitmentsForEachRingEntry` for a ring/commitment length
mismatch; else `InvalidHiddenCommitmentInRing` when some
`ring[i].1 != public_commitments[i] - pseudo_commitment`; else
`KeyImageNotOnCurve` when the key image fails the curve test; else
`InvalidRingSignature` when the recomputed chain (seeded `cprime[0] = c0`,
stepped by `mlsagStep`, which is the claim's `c_hash` recurrence) does not
end with `cprime[0] = c0`.  Stated on the domain where `verify` is total:
non-empty ring and `r` at least ring-sized (outside it the code panics;
claims C9, C10). -/
theorem C3_mlsag_verify_cases (s : MlsagSignature F P) (ctx : Ctx F P)
    (msg : List Nat) (pcs : List P)
    (hne : s.ring.length ≠ 0) (hr : s.ring.length ≤ s.r.length) :
    (s.verify (E := E) ctx msg pcs = some (.ok ()) ↔
      (s.ring.length = pcs.length ∧ HiddenOk s pcs ∧
        s.key_image.is_on_curve = true ∧
        s.c0 = (s.cprime ctx msg).getD 0 0)) ∧
    (s.ring.length ≠ pcs.length →
      s.verify (E := E) ctx msg pcs =
        some (.error .ExpectedAPublicCommitmentsForEachRingEntry)) ∧
    (s.ring.length = pcs.length → ¬ HiddenOk s pcs →
      s.verify (E := E) ctx msg pcs =
        some (.error .InvalidHiddenCommitmentInRing)) ∧
    (s.ring.length = pcs.length → HiddenOk s pcs →
      s.key_image.is_on_curve = false →
      s.verify (E := E) ctx msg pcs = some (.error .KeyImageNotOnCurve)) ∧
    (s.ring.length = pcs.length → HiddenOk s pcs →
      s.key_image.is_on_curve = true →
      s.c0 ≠ (s.cprime ctx msg).getD 0 0 →
      s.verify (E := E) ctx msg pcs = some (.error .InvalidRingSignature)) := by
  have hnr : ¬ s.r.length < s.ring.length := not_lt.mpr hr
  by_cases h1 : s.ring.length = pcs.length
  · cases hb : (s.ring.zip pcs).any
      (fun x => decide (x.1.2 ≠ x.2 - s.pseudo_commitment)) with
    | true =>
      have hnh : ¬ HiddenOk s pcs := by
        intro hh
        rw [(any_hidden_iff _ _ _ h1).mpr hh] at hb
        exact Bool.false_ne_true hb
      have hv := verify_eq_hidden_err (E := E) s ctx msg pcs h1 hb
      refine ⟨?_, fun h => absurd h1 h, fun _ _ => hv,
        fun _ hh => absurd hh hnh, fun _ hh _ _ => absurd hh hnh⟩
      rw [hv]
      constructor
      · intro hcontra
        simp at hcontra
      · rintro ⟨-, hcc, -, -⟩
        exact absurd hcc hnh
    | false =>
      have hh : HiddenOk s pcs := (any_hidden_iff _ _ _ h1).mp hb
      cases hoc : s.key_image.onCurve with
      | false =>
        have hv := verify_eq_keyimage_err (E := E) s ctx msg pcs h1 hb hoc
        refine ⟨?_, fun h => absurd h1 h, fun _ hnh => absurd hh hnh,
          fun _ _ _ => hv, fun _ _ hoc2 _ =>
            absurd hoc2 (by simp [AffinePoint.is_on_curve, hoc])⟩
        rw [hv]
        constructor
        · intro hcontra
          simp at hcontra
        · rintro ⟨-, -, hcc, -⟩
          simp [AffinePoint.is_on_curve, hoc] at hcc
      | true =>
        by_cases hc : s.c0 = (s.cprime ctx msg).getD 0 0
        · have hv := verify_eq_ok (E := E) s ctx msg pcs h1 hb hoc hne hnr
            hc.symm
          refine ⟨?_, fun h => absurd h1 h, fun _ hnh => absurd hh hnh,
            fun _ _ hoc2 =>
              absurd hoc2 (by simp [AffinePoint.is_on_curve, hoc]),
            fun _ _ _ hc2 => absurd hc hc2⟩
          rw [hv]
          constructor
          · intro _
            exact ⟨h1, hh, by simp [AffinePoint.is_on_curve, hoc], hc⟩
          · intro _
            rfl
        · have hv := verify_eq_ring_err (E := E) s ctx msg pcs h1 hb hoc hne
            hnr hc
          refine ⟨?_, fun h => absurd h1 h, fun _ hnh => absurd hh hnh,
            fun _ _ hoc2 =>
              absurd hoc2 (by simp [AffinePoint.is_on_curve, hoc]),
            fun _ _ _ _ => hv⟩
          rw [hv]
          constructor
          · intro hcontra
            simp at hcontra
          · rintro ⟨-, -, -, hcc⟩
            exact absurd hcc hc
  · have hv := verify_eq_len_err (E := E) s ctx msg pcs h1
    refine ⟨?_, fun _ => hv, fun h => absurd h h1, fun h => absurd h h1,
      fun h => absurd h h1⟩
    rw [hv]
    constructor
    · intro hcontra
      simp at hcontra
    · rintro ⟨hcc, -⟩
      exact absurd hcc h1

/-- Witness for C3 at a concrete accepting signature of ring size 1. -/
theorem C3_witness :
    (Conc.sig3.verify (E := Unit) Conc.ctx [] [7] = some (.ok ()) ↔
      (Conc.sig3.ring.length = [(7 : Conc.CF)].length ∧
        HiddenOk Conc.sig3 [7] ∧
        Conc.sig3.key_image.is_on_curve = true ∧
        Conc.sig3.c0 = (Conc.sig3.cprime Conc.ctx []).getD 0 0)) ∧
    (Conc.sig3.ring.length ≠ [(7 : Conc.CF)].length →
      Conc.sig3.verify (E := Unit) Conc.ctx [] [7] =
        some (.error .ExpectedAPublicCommitmentsForEachRingEntry)) ∧
    (Conc.sig3.ring.length = [(7 : Conc.CF)].length →
      ¬ HiddenOk Conc.sig3 [7] →
      Conc.sig3.verify (E := Unit) Conc.ctx [] [7] =
        some (.error .InvalidHiddenCommitmentInRing)) ∧
    (Conc.sig3.ring.length = [(7 : Conc.CF)].length →
      HiddenOk Conc.sig3 [7] →
      Conc.sig3.key_image.is_on_curve = false →
      Conc.sig3.verify (E := Unit) Conc.ctx [] [7] =
        some (.error .KeyImageNotOnCurve)) ∧
    (Conc.sig3.ring.length = [(7 : Conc.CF)].length →
      HiddenOk Conc.sig3 [7] →
      Conc.sig3.key_image.is_on_curve = true →
      Conc.sig3.c0 ≠ (Conc.sig3.cprime Conc.ctx []).getD 0 0 →
      Conc.sig3.verify (E := Unit) Conc.ctx [] [7] =
        some (.error .InvalidRingSignature)) :=
  C3_mlsag_verify_cases Conc.sig3 Conc.ctx [] [7] (by decide) (by decide)

/-- Claim C4, counterexample: with empty `outputs`, `RingCtMaterial::sign`
does NOT return an error: it panics (`none` in the model; in Rust, the
debug-build subtraction overflow in `outputs.len() - 1` or the explicit
`panic!("Expected at least one output")`), so no `Err` value is ever
returned to the caller. -/
theorem C4_counterexample :
    Conc.mat4.sign Conc.ctx Conc.rpctx (fun _ => 5) (fun _ => 6) Conc.rand1 =
      none := rfl

/-- Claim C4 (amended): when the outputs list is empty,
`RingCtMaterial::sign` does not produce a transaction — it panics (the
model's `none`) rather than returning an error; apart from propagated
range-proof proving errors, this panic on the `outputs.len() >= 1`
precondition is sign's only failure. -/
theorem C4_sign_panics_on_empty_outputs (mat : RingCtMaterial F P)
    (ctx : Ctx F P) (rpctx : RpCtx F P T RP E)
    (pseudoBlind outBlind : Nat → F) (sigRand : Nat → SigRand F)
    (h : mat.outputs = []) :
    mat.sign ctx rpctx pseudoBlind outBlind sigRand = none := by
  simp [RingCtMaterial.sign, h]

/-- Witness for the amended C4 at a concrete materials value. -/
theorem C4_witness :
    Conc.mat4.sign Conc.ctx Conc.rpctx (fun _ => 1) (fun _ => 2) Conc.rand1 =
      none :=
  C4_sign_panics_on_empty_outputs Conc.mat4 Conc.ctx Conc.rpctx (fun _ => 1)
    (fun _ => 2) Conc.rand1 rfl

/-- Claim C5, counterexample: a signature that passes the length and
hidden-commitment checks and whose key image is `G1Affine::identity()`
does NOT make verify return `KeyImageNotOnCurve`: blst's
`blst_p1_affine_on_curve` accepts the all-zero infinity encoding, so
verification proceeds to the challenge chain (and here even succeeds). -/
theorem C5_counterexample :
    Conc.sig5.verify (E := Unit) Conc.ctx [] [7] = some (.ok ()) ∧
    Conc.sig5.verify (E := Unit) Conc.ctx [] [7] ≠
      some (.error Error.KeyImageNotOnCurve) := by
  exact ⟨by decide, by decide⟩

/-- Claim C5 (amended): for any `MlsagSignature` that passes the length
and hidden-commitment checks, replacing its key image with a point whose
encoding fails the curve test makes `MlsagSignature::verify` return
`KeyImageNotOnCurve`; the identity point, whose all-zero encoding blst
counts as on-curve, instead proceeds to the challenge chain. -/
theorem C5_keyimage_offcurve (s : MlsagSignature F P) (ctx : Ctx F P)
    (msg : List Nat) (pcs : List P) (h1 : s.ring.length = pcs.length)
    (h2 : HiddenOk s pcs) (h3 : s.key_image.is_on_curve = false) :
    s.verify (E := E) ctx msg pcs = some (.error .KeyImageNotOnCurve) :=
  verify_eq_keyimage_err s ctx msg pcs h1
    ((any_hidden_iff _ _ _ h1).mpr h2) h3

/-- Witness for the amended C5 at a concrete off-curve key image. -/
theorem C5_witness :
    Conc.sig5off.verify (E := Unit) Conc.ctx [] [7] =
      some (.error Error.KeyImageNotOnCurve) :=
  C5_keyimage_offcurve Conc.sig5off Conc.ctx [] [7] (by decide) (by decide)
    (by decide)

/-- Claim C6: for every `MlsagMaterial` and every pseudo-commitment
opening committing to the same value as the true input's revealed
commitment, the signature `MlsagMaterial::sign` produces has, at the true
position `pi`, `ring[pi].1 = (input_blinding - pseudo_blinding) * G`: the
`H`-components of the commitment and the pseudo-commitment cancel. -/
theorem C6_true_ring_entry (m : MlsagMaterial F P) (ctx : Ctx F P)
    (msg : List Nat) (psc : RevealedCommitment F) (rand : SigRand F)
    (hval : psc.value = m.true_input.revealed_commitment.value) :
    ((m.sign ctx msg psc rand).ring.getD
        (rand.piRaw % m.count_inputs) (0, 0)).2 =
      (m.true_input.revealed_commitment.blinding - psc.blinding) • ctx.G := by
  set pi := rand.piRaw % (m.decoy_inputs.length + 1) with hpidef
  have hpi_small : pi < m.decoy_inputs.length + 1 := Nat.mod_lt _ (by omega)
  have hring : (m.sign ctx msg psc rand).ring =
      ((m.public_keys ctx pi).zip (m.commitments ctx pi)).map
        (fun x => (x.1, x.2 - psc.commit ctx)) := rfl
  have hpks_len : (m.public_keys ctx pi).length = m.decoy_inputs.length + 1 := by
    simp [MlsagMaterial.public_keys, length_insertAt]
  have hcms_len : (m.commitments ctx pi).length = m.decoy_inputs.length + 1 := by
    simp [MlsagMaterial.commitments, length_insertAt]
  have hcount : rand.piRaw % m.count_inputs = pi := rfl
  rw [hcount, hring]
  rw [getD_map _ _ _ ((0 : P), (0 : P)) _
    (by simp [List.length_zip, hpks_len, hcms_len]; omega)]
  rw [getD_zip _ _ _ _ _ (by omega) (by omega)]
  show (m.commitments ctx pi).getD pi 0 - psc.commit ctx = _
  have hcms_pi : (m.commitments ctx pi).getD pi 0 =
      m.true_input.revealed_commitment.commit ctx := by
    unfold MlsagMaterial.commitments
    exact getD_insertAt_self _ _ _ _ (by simp [List.length_map]; omega)
  rw [hcms_pi, commit_sub_commit _ _ _ hval]

/-- Witness for C6 at a concrete material and opening. -/
theorem C6_witness :
    ((Conc.mm1.sign Conc.ctx [] Conc.psc0 (Conc.rand1 0)).ring.getD
        ((Conc.rand1 0).piRaw % Conc.mm1.count_inputs) (0, 0)).2 =
      (Conc.mm1.true_input.revealed_commitment.blinding -
        Conc.psc0.blinding) • Conc.ctx.G :=
  C6_true_ring_entry Conc.mm1 Conc.ctx [] Conc.psc0 (Conc.rand1 0) rfl

/-- Claim C8: `RingCtTransaction::verify` iterates over the zip of
`mlsags` and `public_commitments_per_ring`, so mlsags beyond the length
of the commitment list are never ring-verified: replacing them by ANY
other signatures with the same pseudo-commitments (their only other
influence, through the balance sum) leaves the verification result
unchanged — in particular verify can return Ok without ever checking
them, as the witness exhibits. -/
theorem C8_surplus_mlsags_ignored (ctx : Ctx F P) (rpctx : RpCtx F P T RP E)
    (msg : List Nat) (pcss : List (List P))
    (m1 m2 m2' : List (MlsagSignature F P)) (outs : List (OutputProof P RP))
    (hlen : pcss.length ≤ m1.length)
    (hpc : m2.map (fun s => s.pseudo_commitment) =
      m2'.map (fun s => s.pseudo_commitment)) :
    RingCtTransaction.verify { mlsags := m1 ++ m2, outputs := outs } ctx
      rpctx msg pcss =
    RingCtTransaction.verify { mlsags := m1 ++ m2', outputs := outs } ctx
      rpctx msg pcss := by
  simp only [RingCtTransaction.verify, zip_append_left m1 m2 pcss hlen,
    zip_append_left m1 m2' pcss hlen, List.map_append, List.sum_append, hpc]

/-- Witness for C8: a transaction whose second mlsag is invalid (it fails
its own ring verification even against favourable commitments) yet whose
overall verification succeeds, because `public_commitments_per_ring` has
only one entry; and replacing the surplus mlsag wholesale changes
nothing. -/
theorem C8_witness :
    (RingCtTransaction.verify
        { mlsags := [Conc.sig8ok] ++ [Conc.sig8bad], outputs := Conc.outs8 }
        Conc.ctx Conc.rpctx [] [[7]] =
      RingCtTransaction.verify
        { mlsags := [Conc.sig8ok] ++ [Conc.sig8bad2], outputs := Conc.outs8 }
        Conc.ctx Conc.rpctx [] [[7]]) ∧
    RingCtTransaction.verify
        { mlsags := [Conc.sig8ok] ++ [Conc.sig8bad], outputs := Conc.outs8 }
        Conc.ctx Conc.rpctx [] [[7]] = some (.ok ()) ∧
    Conc.sig8bad.verify (E := Unit) Conc.ctx [] [9] =
      some (.error Error.InvalidRingSignature) :=
  ⟨C8_surplus_mlsags_ignored Conc.ctx Conc.rpctx [] [[7]] [Conc.sig8ok]
      [Conc.sig8bad] [Conc.sig8bad2] Conc.outs8 (by decide) (by decide),
    by decide, by decide⟩

/-- Claim C9: `MlsagSignature::verify` is not total on an empty ring: for
a signature whose ring and public commitment list are both empty (and
whose key image passes the curve test, so that no earlier check returns
first), the assignment `cprime[0] = self.c0` indexes an empty vector and
panics — `none` in the model — instead of returning an error. -/
theorem C9_verify_empty_ring_panics (s : MlsagSignature F P) (ctx : Ctx F P)
    (msg : List Nat) (hring : s.ring = [])
    (hki : s.key_image.is_on_curve = true) :
    s.verify (E := E) ctx msg [] = none := by
  apply verify_eq_none_empty s ctx msg []
  · rw [hring]; rfl
  · rw [hring]; rfl
  · exact hki
  · rw [hring]; rfl

/-- Witness for C9 at a concrete empty-ring signature. -/
theorem C9_witness : Conc.sig9.verify (E := Unit) Conc.ctx [] [] = none :=
  C9_verify_empty_ring_panics Conc.sig9 Conc.ctx [] rfl rfl

/-- Claim C10: `MlsagSignature::verify` never checks that `r` has as many
pairs as `ring`: for every signature with a non-empty ring whose `r`
vector is shorter than its ring and whose earlier checks pass, the
challenge-chain loop indexes `r` out of bounds and panics — `none` in
the model — instead of returning an error. -/
theorem C10_verify_short_r_panics (s : MlsagSignature F P) (ctx : Ctx F P)
    (msg : List Nat) (pcs : List P) (h1 : s.ring.length = pcs.length)
    (h2 : HiddenOk s pcs) (h3 : s.key_image.is_on_curve = true)
    (hne : s.ring.length ≠ 0) (hshort : s.r.length < s.ring.length) :
    s.verify (E := E) ctx msg pcs = none :=
  verify_eq_none_short s ctx msg pcs h1
    ((any_hidden_iff _ _ _ h1).mpr h2) h3 hne hshort

/-- Witness for C10 at a concrete signature with an empty `r`. -/
theorem C10_witness : Conc.sig10.verify (E := Unit) Conc.ctx [] [7] = none :=
  C10_verify_short_r_panics Conc.sig10 Conc.ctx [] [7] (by decide) (by decide)
    rfl (by decide) (by decide)

end Claims

end BlstRingCt
